import Mathlib

/-!
Shallow embedding of the xlq workbook-access engine (Go) and proofs about it.

Strings from the Go side are embedded as `List Char`; the repository only ever
feeds the relevant functions ASCII data, and characters are compared by code
point, exactly as Go compares bytes/runes in the embedded code paths.
Opaque payloads (cell values carried through the streaming layer) are kept as
Lean `String`s, since the code never inspects them there.
-/

namespace Xlq

/-! ### Character helpers (Go `strings`/`unicode`, ASCII fragment) -/

/-- The character class `[A-Za-z]` of the cell-address pattern. -/
def isAsciiLetter (c : Char) : Bool :=
  (65 ≤ c.toNat && c.toNat ≤ 90) || (97 ≤ c.toNat && c.toNat ≤ 122)

/-- The character class `[0-9]`. -/
def isDigitChar (c : Char) : Bool :=
  48 ≤ c.toNat && c.toNat ≤ 57

/-- `strings.ToUpper` on a single character (ASCII fragment). -/
def goToUpperChar (c : Char) : Char :=
  if 97 ≤ c.toNat && c.toNat ≤ 122 then Char.ofNat (c.toNat - 32) else c

/-- `strings.ToLower` on a single character (ASCII fragment). -/
def goToLowerChar (c : Char) : Char :=
  if 65 ≤ c.toNat && c.toNat ≤ 90 then Char.ofNat (c.toNat + 32) else c

/-- `unicode.IsSpace` on the Latin-1 range (space, tab, newline, vertical tab,
form feed, carriage return, next line, no-break space). -/
def goIsSpace (c : Char) : Bool :=
  c.toNat = 32 || c.toNat = 9 || c.toNat = 10 || c.toNat = 11 ||
    c.toNat = 12 || c.toNat = 13 || c.toNat = 133 || c.toNat = 160

/-- `strings.TrimSpace`: drop leading and trailing white space. -/
def goTrimSpace (s : List Char) : List Char :=
  ((s.dropWhile goIsSpace).reverse.dropWhile goIsSpace).reverse

/-! ### Address codec (`ParseCellAddress` / `FormatCellAddress` and friends,
from the xlsx package's types file) -/

/-- Reduction of a 64-bit signed wrap-around: Go `int` arithmetic is two's
complement on 64 bits. -/
def int64Wrap (x : Int) : Int := (x + 2 ^ 63) % 2 ^ 64 - 2 ^ 63

/-- `ColumnNameToNumber`: fold `result = result*26 + int(ch - 'A' + 1)` over the
(uppercased) letters, on Go `int` arithmetic. -/
def columnNameToNumber (name : List Char) : Int :=
  name.foldl (fun r c => int64Wrap (r * 26 + (((goToUpperChar c).toNat : Int) - 64))) 0

/-- The loop body of `ColumnNumberToName`, driven by explicit fuel so that the
definition is structurally recursive (the Go loop runs `col /= 26` until 0;
`fuel ≥ col` iterations always suffice). -/
def columnNumberToNameAux : Nat → Nat → List Char
  | _, 0 => []
  | 0, _ + 1 => []
  | fuel + 1, n + 1 => columnNumberToNameAux fuel (n / 26) ++ [Char.ofNat (65 + n % 26)]

/-- `ColumnNumberToName`: bijective base-26 rendering with letters `A`-`Z`. -/
def columnNumberToName (col : Nat) : List Char :=
  columnNumberToNameAux col col

/-- Decimal digit rendering of a natural number, the `%d` verb of
`fmt.Sprintf` for non-negative values; fuel-driven for structural recursion. -/
def natToDigitsAux : Nat → Nat → List Char
  | 0, n => [Char.ofNat (48 + n)]
  | fuel + 1, n =>
    if n < 10 then [Char.ofNat (48 + n)]
    else natToDigitsAux fuel (n / 10) ++ [Char.ofNat (48 + n % 10)]

/-- Decimal digit rendering of a natural number (`%d`). -/
def natToDigits (n : Nat) : List Char :=
  natToDigitsAux n n

/-- `FormatCellAddress`: `fmt.Sprintf("%s%d", ColumnNumberToName(col), row)`. -/
def formatCellAddress (col row : Nat) : List Char :=
  columnNumberToName col ++ natToDigits row

/-- Value of a run of decimal digit characters. -/
def digitsToNat (s : List Char) : Nat :=
  s.foldl (fun r c => r * 10 + (c.toNat - 48)) 0

/-- `strconv.Atoi` on the strings the address pattern feeds it: a non-empty run
of ASCII digits.  A value beyond the 64-bit signed maximum is an error. -/
def goAtoiDigits (s : List Char) : Option Int :=
  if s.isEmpty then none
  else if !s.all isDigitChar then none
  else if (digitsToNat s : Int) ≤ 2 ^ 63 - 1 then some (digitsToNat s) else none

/-- `ParseCellAddress`: trim white space, uppercase, match the anchored pattern
`([A-Za-z]+)([0-9]+)` (the submatch split is forced at the letter/digit
boundary), decode the column letters, `Atoi` the digits, and require row ≥ 1. -/
def parseCellAddress (addr : List Char) : Option (Int × Int) :=
  let a := goTrimSpace (addr.map goToUpperChar)
  let letters := a.takeWhile isAsciiLetter
  let digits := a.drop letters.length
  if letters.isEmpty || digits.isEmpty || !digits.all isDigitChar then none
  else
    match goAtoiDigits digits with
    | none => none
    | some row => if row < 1 then none else some (columnNameToNumber letters, row)

/-- The acceptance pattern the specification states for `parse_address`:
`[A-Z]+[1-9][0-9]*` on the trimmed, uppercased input (so the digit run may not
start with `0`). -/
def specAddrPattern (s : List Char) : Bool :=
  let letters := s.takeWhile (fun c => 65 ≤ c.toNat && c.toNat ≤ 90)
  let digits := s.drop letters.length
  !letters.isEmpty &&
    (match digits with
     | [] => false
     | d :: ds => (49 ≤ d.toNat && d.toNat ≤ 57) && ds.all isDigitChar)

/-- The acceptance condition the code actually implements, stated over the
trimmed, uppercased input: `[A-Z]+[0-9]+` where the digit run's decimal value
is at least 1 (leading zeros tolerated) and within the signed 64-bit range. -/
def amendedAddrPattern (s : List Char) : Bool :=
  let letters := s.takeWhile (fun c => 65 ≤ c.toNat && c.toNat ≤ 90)
  let digits := s.drop letters.length
  !letters.isEmpty && !digits.isEmpty && digits.all isDigitChar &&
    decide (1 ≤ digitsToNat digits) && decide (digitsToNat digits ≤ 2 ^ 63 - 1)

/-! ### Data model (`Cell`, `Row` of the xlsx package) -/

/-- A cell as produced by the read paths. -/
structure Cell where
  address : List Char
  value : String
  kind : List Char
  row : Nat
  col : Nat
deriving Repr, DecidableEq

/-- A row of cells. -/
structure Row where
  number : Nat
  cells : List Cell
deriving Repr, DecidableEq

/-- The raw ring-buffer slot of `StreamTail`: row number plus the raw column
value strings, before any `Cell` is constructed. -/
structure RawRow where
  number : Nat
  values : List String
deriving Repr, DecidableEq

/-- `constructRow`: build a `Row` of `Cell`s from raw values; cell `i` (0-based)
gets column `i+1`, the formatted address, and the fixed tag `string`.  The
per-row cell construction inlined in `StreamRows` builds exactly the same
record. -/
def constructRow (raw : RawRow) : Row :=
  { number := raw.number
    cells := raw.values.enum.map (fun p =>
      { address := formatCellAddress (p.1 + 1) raw.number
        value := p.2
        kind := "string".data
        row := raw.number
        col := p.1 + 1 }) }

/-- The cell-field consistency invariant: inside a row, cell `i` carries the
formatted address of its own (col, row) pair, the row number of its containing
row, the fixed tag `string`, and the consecutive 1-based column index
`base + i`. -/
def rowCellsConsistent (base : Nat) (r : Row) : Prop :=
  ∀ i (h : i < r.cells.length),
    (r.cells.get ⟨i, h⟩).address =
        formatCellAddress (r.cells.get ⟨i, h⟩).col (r.cells.get ⟨i, h⟩).row ∧
      (r.cells.get ⟨i, h⟩).row = r.number ∧
      (r.cells.get ⟨i, h⟩).kind = "string".data ∧
      (r.cells.get ⟨i, h⟩).col = base + i

/-! ### Row streaming (`StreamRows`, `StreamRange`, `StreamTail`)

A sheet is embedded as the list of its rows' column-value lists, exactly what
the parser's row iterator yields (`rows.Columns()` per `rows.Next()`), in
ascending row order.  The embedding captures the sequence of `Row` values the
producer sends on the channel when the consumer drains it; per-row decode
errors and cancellation terminate the real sequence early and are out of scope
for the claims settled against these functions. -/

/-- The `StreamRows` loop: `rowNum` counts every underlying row; rows before
`startRow` are skipped (when `startRow > 0`), the loop breaks past `endRow`
(when `endRow > 0`). -/
def streamRowsAux (startRow endRow : Int) : Nat → List (List String) → List Row
  | _, [] => []
  | rowNum, cols :: rest =>
    if startRow > 0 && ((rowNum + 1 : Nat) : Int) < startRow then
      streamRowsAux startRow endRow (rowNum + 1) rest
    else if endRow > 0 && ((rowNum + 1 : Nat) : Int) > endRow then []
    else
      constructRow { number := rowNum + 1, values := cols } ::
        streamRowsAux startRow endRow (rowNum + 1) rest

/-- `StreamRows` over a resolved sheet. -/
def streamRows (sheetRows : List (List String)) (startRow endRow : Int) : List Row :=
  streamRowsAux startRow endRow 0 sheetRows

/-- A parsed cell range (fields are 1-based; `ParseRange` only produces
positive bounds). -/
structure CellRange where
  startCol : Nat
  startRow : Nat
  endCol : Nat
  endRow : Nat
deriving Repr, DecidableEq

/-- The per-row cell window of `StreamRange`: columns `startCol..endCol`,
missing cells in the window become empty-string cells. -/
def rangeRowCells (rng : CellRange) (rowNum : Nat) (cols : List String) : List Cell :=
  (List.range' rng.startCol (rng.endCol + 1 - rng.startCol)).map (fun colIdx =>
    { address := formatCellAddress colIdx rowNum
      value := cols.getD (colIdx - 1) ""
      kind := "string".data
      row := rowNum
      col := colIdx })

/-- The `StreamRange` loop: skip rows before the range, break past it. -/
def streamRangeAux (rng : CellRange) : Nat → List (List String) → List Row
  | _, [] => []
  | rowNum, cols :: rest =>
    if rowNum + 1 < rng.startRow then streamRangeAux rng (rowNum + 1) rest
    else if rowNum + 1 > rng.endRow then []
    else
      { number := rowNum + 1, cells := rangeRowCells rng (rowNum + 1) cols } ::
        streamRangeAux rng (rowNum + 1) rest

/-- `StreamRange` over a resolved sheet. -/
def streamRange (sheetRows : List (List String)) (rng : CellRange) : List Row :=
  streamRangeAux rng 0 sheetRows

/-- The scanning state of `StreamTail`: the ring buffer of raw rows, the next
slot to overwrite, and the total number of rows seen. -/
structure TailState where
  buffer : List RawRow
  bufIdx : Nat
  totalRows : Nat
deriving Repr, DecidableEq

/-- One iteration of the `StreamTail` scan: copy the raw column values into
slot `bufIdx` (the code reuses the slot's string slice in place; the stored
contents are the same), advance `bufIdx` modulo `n`, count the row. -/
def tailStep (n : Nat) (st : TailState) (cols : List String) : TailState :=
  { buffer := st.buffer.set st.bufIdx { number := st.totalRows + 1, values := cols }
    bufIdx := (st.bufIdx + 1) % n
    totalRows := st.totalRows + 1 }

/-- The initial ring buffer: `n` pre-allocated slots with empty value slices. -/
def tailInit (n : Nat) : TailState :=
  { buffer := List.replicate n { number := 0, values := [] }
    bufIdx := 0
    totalRows := 0 }

/-- The extraction phase of `StreamTail`: materialise `Cell`s exactly once, for
the up-to-`n` slots returned, walking the ring from `bufIdx` when full and from
0 when under-filled. -/
def tailExtract (n : Nat) (st : TailState) : List Row :=
  if st.totalRows = 0 then []
  else if st.totalRows < n then
    (List.range st.totalRows).map (fun i =>
      constructRow (st.buffer.getD i { number := 0, values := [] }))
  else
    (List.range n).map (fun i =>
      constructRow (st.buffer.getD ((st.bufIdx + i) % n) { number := 0, values := [] }))

/-- `StreamTail`: `n ≤ 0` coerces to the default 10; scan every row through the
ring buffer, then extract. -/
def streamTail (sheetRows : List (List String)) (n : Int) : List Row :=
  let m : Nat := if n ≤ 0 then 10 else n.toNat
  tailExtract m (sheetRows.foldl (tailStep m) (tailInit m))

/-- The rows of a sheet paired with their row numbers, starting after `k`. -/
def numberedFrom (k : Nat) : List (List String) → List RawRow
  | [] => []
  | cols :: rest => { number := k + 1, values := cols } :: numberedFrom (k + 1) rest

/-- The rows of a sheet paired with their 1-based row numbers. -/
def numberedRows (sheetRows : List (List String)) : List RawRow :=
  numberedFrom 0 sheetRows

/-- The content slot `j` of the `StreamTail` ring buffer holds after the whole
row list `nr` has passed through: the latest row whose 0-based index is
congruent to `j` modulo `n`, or the pre-allocated empty slot when fewer than
`j + 1` rows have been seen. -/
def ringSlot (nr : List RawRow) (n j : Nat) : RawRow :=
  if j < min nr.length n then
    nr.getD (j + n * ((nr.length - 1 - j) / n)) { number := 0, values := [] }
  else { number := 0, values := [] }

/-- The scanning state after the rows `nr` have passed through the ring. -/
def ringState (nr : List RawRow) (n : Nat) : TailState :=
  { buffer := (List.range n).map (ringSlot nr n)
    bufIdx := nr.length % n
    totalRows := nr.length }

/-- The specified tail: the last `min m W` rows of a `W`-row sheet, in original
ascending order, as constructed rows. -/
def lastRowsSpec (sheetRows : List (List String)) (m : Nat) : List Row :=
  ((numberedRows sheetRows).drop (sheetRows.length - min m sheetRows.length)).map constructRow

/-! ### Search (`Search` of the xlsx package)

The matcher is the compiled predicate (`re.MatchString` or the literal
`strings.Contains` closure); the claims quantify over it, so it is a function
parameter here.  A workbook is the list of its sheets in declaration order,
each a name with its rows. -/

/-- A search hit. -/
structure SearchHit where
  sheet : List Char
  address : List Char
  value : String
  row : Nat
  col : Nat
deriving Repr, DecidableEq

/-- Result of a scanning stage: hits emitted, updated result count, and whether
the `max_results` cutoff fired (the goroutine returns). -/
structure ScanOut where
  hits : List SearchHit
  count : Nat
  stopped : Bool
deriving Repr, DecidableEq

/-- The inner column loop of `Search`: emit a hit per non-empty matching cell;
after emitting, increment the count and stop everything once it reaches
`maxResults` (when positive). -/
def scanCells (m : String → Bool) (maxResults : Int) (sheet : List Char) (rowNum : Nat) :
    List (Nat × String) → Nat → ScanOut
  | [], count => ⟨[], count, false⟩
  | (i, v) :: rest, count =>
    if (v != "") && m v then
      let hit : SearchHit :=
        ⟨sheet, formatCellAddress (i + 1) rowNum, v, rowNum, i + 1⟩
      if maxResults > 0 && ((count : Int) + 1 ≥ maxResults) then ⟨[hit], count + 1, true⟩
      else
        let out := scanCells m maxResults sheet rowNum rest (count + 1)
        ⟨hit :: out.hits, out.count, out.stopped⟩
    else scanCells m maxResults sheet rowNum rest count

/-- The row loop of `Search` over one sheet (rows already paired with their
1-based numbers). -/
def scanRows (m : String → Bool) (maxResults : Int) (sheet : List Char) :
    List (Nat × List String) → Nat → ScanOut
  | [], count => ⟨[], count, false⟩
  | (rowNum, cols) :: rest, count =>
    let out := scanCells m maxResults sheet rowNum cols.enum count
    if out.stopped then ⟨out.hits, out.count, true⟩
    else
      let out2 := scanRows m maxResults sheet rest out.count
      ⟨out.hits ++ out2.hits, out2.count, out2.stopped⟩

/-- The sheet loop of `Search`. -/
def scanSheets (m : String → Bool) (maxResults : Int) :
    List (List Char × List (List String)) → Nat → List SearchHit
  | [], _ => []
  | (name, rows) :: rest, count =>
    let out := scanRows m maxResults name (rows.enum.map (fun p => (p.1 + 1, p.2))) count
    if out.stopped then out.hits
    else out.hits ++ scanSheets m maxResults rest out.count

/-- `strings.EqualFold` (ASCII fragment). -/
def goEqualFold (a b : List Char) : Bool :=
  a.map goToLowerChar == b.map goToLowerChar

/-- `ResolveSheetName` against a sheet-name list: empty means the first sheet,
otherwise the first case-insensitive match; no match is an error. -/
def resolveSheetName (names : List (List Char)) (s : List Char) : Option (List Char) :=
  if s.isEmpty then names.head?
  else names.find? (fun t => goEqualFold t s)

/-- A workbook: sheets in declaration order. -/
def Workbook := List (List Char × List (List String))

/-- The sheets `Search` will scan: the resolved named sheet when `opts.Sheet`
is set, otherwise all sheets (`GetSheets` errors on an empty workbook). -/
def searchSheetSelection (wb : Workbook) (sheetOpt : List Char) : Option (List (List Char)) :=
  if sheetOpt.isEmpty then
    if List.isEmpty wb then none else some (wb.map Prod.fst)
  else
    (resolveSheetName (wb.map Prod.fst) sheetOpt).map (fun n => [n])

/-- Rows of the named sheet (the names fed in always come from the workbook). -/
def sheetRowsOf (wb : Workbook) (name : List Char) : List (List String) :=
  ((List.find? (fun p => p.1 == name) wb).map Prod.snd).getD []

/-- `Search`: select the sheets, then run the scan with result counting from
zero.  `none` models the synchronous errors (empty pattern, bad regex, unknown
sheet, empty workbook); matcher construction is the `m` parameter. -/
def search (wb : Workbook) (m : String → Bool) (sheetOpt : List Char) (maxResults : Int) :
    Option (List SearchHit) :=
  (searchSheetSelection wb sheetOpt).map (fun names =>
    scanSheets m maxResults (names.map (fun n => (n, sheetRowsOf wb n))) 0)

/-- All hits of one row, in column order: one hit per non-empty cell the
matcher admits. -/
def rowHits (m : String → Bool) (sheet : List Char) (rowNum : Nat) (cols : List String) :
    List SearchHit :=
  cols.enum.filterMap (fun p =>
    if (p.2 != "") && m p.2 then
      some ⟨sheet, formatCellAddress (p.1 + 1) rowNum, p.2, rowNum, p.1 + 1⟩
    else none)

/-- All hits of a list of sheets, ordered by (sheet order, row, column). -/
def allHits (m : String → Bool) : List (List Char × List (List String)) → List SearchHit
  | [] => []
  | (name, rows) :: rest =>
    (rows.enum.map (fun p => rowHits m name (p.1 + 1) p.2)).flatten ++ allHits m rest

/-- The hits of a list of already-indexed cells: one per non-empty cell the
matcher admits, in order. -/
def cellMatches (m : String → Bool) (sheet : List Char) (rowNum : Nat)
    (cells : List (Nat × String)) : List SearchHit :=
  cells.filterMap (fun p =>
    if (p.2 != "") && m p.2 then
      some ⟨sheet, formatCellAddress (p.1 + 1) rowNum, p.2, rowNum, p.1 + 1⟩
    else none)

/-- The hits of a list of already-numbered rows of one sheet, in order. -/
def pairsMatches (m : String → Bool) (sheet : List Char)
    (l : List (Nat × List String)) : List SearchHit :=
  (l.map (fun q => rowHits m sheet q.1 q.2)).flatten

/-- The expected outcome of a scanning stage that enters with result count
`count` and whose remaining input admits the hit list `ms`: with a positive
`max_results` the emitted hits are truncated to the remaining budget, the
count advances by what was emitted, and scanning stops exactly when the budget
is exhausted. -/
def scanOutSpec (maxR : Int) (count : Nat) (ms : List SearchHit) : ScanOut :=
  if maxR > 0 then
    ⟨ms.take (maxR.toNat - count), count + min ms.length (maxR.toNat - count),
      decide (maxR.toNat ≤ count + ms.length)⟩
  else ⟨ms, count + ms.length, false⟩

/-! ### Cell writer (`detectValueType`, `setCellWithType` of writer.go)

A Go `any` value is embedded with its dynamic type tag, since both functions
branch on the tag.  A float's IEEE payload is carried as its `%v` rendering
(the only use either function makes of it is passing it through). -/

/-- The dynamic type of a Go integer value. -/
inductive GoIntKind where
  | i | i8 | i16 | i32 | i64 | u | u8 | u16 | u32 | u64
deriving Repr, DecidableEq

/-- A Go `any` value as seen by the cell writer. -/
inductive GoValue where
  | null
  | boolv (b : Bool)
  | intv (t : GoIntKind) (n : Int)
  | floatv (rep : List Char)
  | str (s : List Char)
  | other (rep : List Char)
deriving Repr, DecidableEq

/-- `strconv.ParseBool`: the twelve boolean literals. -/
def goParseBool (s : List Char) : Option Bool :=
  if s == "1".data || s == "t".data || s == "T".data ||
     s == "true".data || s == "TRUE".data || s == "True".data then some true
  else if s == "0".data || s == "f".data || s == "F".data ||
     s == "false".data || s == "FALSE".data || s == "False".data then some false
  else none

/-- The character class of hexadecimal digits. -/
def isHexDigit (c : Char) : Bool :=
  isDigitChar c || (97 ≤ c.toNat && c.toNat ≤ 102) || (65 ≤ c.toNat && c.toNat ≤ 70)

/-- Digit-or-underscore, the shape `ParseFloat`'s reader accepts inside a
decimal digit run before the final underscore-placement check. -/
def digitOrUnderscore (c : Char) : Bool := isDigitChar c || c = '_'

/-- Hex-digit-or-underscore. -/
def hexOrUnderscore (c : Char) : Bool := isHexDigit c || c = '_'

/-- State of `strconv`'s underscore-placement scan: at a boundary, after a
digit (or base prefix), after an underscore, after any other character. -/
inductive USaw where
  | start | digit | under | bang
deriving Repr, DecidableEq

/-- The underscore-placement scan: an underscore must directly follow a digit
(or the base prefix) and be directly followed by a digit. -/
def underscoreScan (digits : Char → Bool) : USaw → List Char → Bool
  | saw, [] => saw != USaw.under
  | saw, c :: rest =>
    if digits c then underscoreScan digits USaw.digit rest
    else if c = '_' then
      if saw == USaw.digit then underscoreScan digits USaw.under rest else false
    else if saw == USaw.under then false
    else underscoreScan digits USaw.bang rest

/-- `strconv.underscoreOK`: validates underscore placement over the whole
numeric literal, switching to hex digits after a `0x` prefix. -/
def underscoreOK (s : List Char) : Bool :=
  let s1 := match s with
    | c :: rest => if c = '-' || c = '+' then rest else s
    | [] => s
  match s1 with
  | '0' :: x :: rest =>
    if goToLowerChar x = 'x' then underscoreScan isHexDigit USaw.digit rest
    else underscoreScan isDigitChar USaw.start s1
  | _ => underscoreScan isDigitChar USaw.start s1

/-- A decimal exponent: optional sign then a non-empty digit run (underscores
tolerated here, checked globally by `underscoreOK`). -/
def expBodyOk (s : List Char) : Bool :=
  match s with
  | [] => false
  | c :: rest =>
    let body := if c = '+' || c = '-' then rest else s
    !body.isEmpty && body.all digitOrUnderscore && body.any isDigitChar

/-- A decimal mantissa with optional fraction and optional `e`/`E` exponent;
at least one digit must appear in the mantissa. -/
def decBodyOk (s : List Char) : Bool :=
  let intPart := s.takeWhile digitOrUnderscore
  let rest1 := s.drop intPart.length
  match rest1 with
  | [] => intPart.any isDigitChar
  | '.' :: rest2 =>
    let frac := rest2.takeWhile digitOrUnderscore
    let rest3 := rest2.drop frac.length
    (intPart.any isDigitChar || frac.any isDigitChar) &&
      (match rest3 with
       | [] => true
       | e :: er => (e = 'e' || e = 'E') && expBodyOk er)
  | e :: er => (e = 'e' || e = 'E') && intPart.any isDigitChar && expBodyOk er

/-- A hexadecimal mantissa (after the `0x` prefix) with optional fraction and
the mandatory `p`/`P` exponent. -/
def hexBodyOk (s : List Char) : Bool :=
  let intPart := s.takeWhile hexOrUnderscore
  let rest1 := s.drop intPart.length
  match rest1 with
  | [] => false
  | '.' :: rest2 =>
    let frac := rest2.takeWhile hexOrUnderscore
    let rest3 := rest2.drop frac.length
    (intPart.any isHexDigit || frac.any isHexDigit) &&
      (match rest3 with
       | [] => false
       | p :: pr => (p = 'p' || p = 'P') && expBodyOk pr)
  | p :: pr => (p = 'p' || p = 'P') && intPart.any isHexDigit && expBodyOk pr

/-- Underscores are ignored when a literal's value is computed. -/
def stripUnderscores (s : List Char) : List Char :=
  s.filter (fun c => c != '_')

/-- Value of one hexadecimal digit character. -/
def hexDigitVal (c : Char) : Nat :=
  if c.toNat ≤ 57 then c.toNat - 48
  else if c.toNat ≤ 70 then c.toNat - 55
  else c.toNat - 87

/-- Value of a run of hexadecimal digit characters. -/
def hexDigitsToNat (s : List Char) : Nat :=
  s.foldl (fun r c => r * 16 + hexDigitVal c) 0

/-- Value of an exponent body: optional sign then decimal digits. -/
def goExpVal (s : List Char) : Int :=
  match s with
  | '+' :: rest => (digitsToNat (stripUnderscores rest) : Int)
  | '-' :: rest => -(digitsToNat (stripUnderscores rest) : Int)
  | _ => (digitsToNat (stripUnderscores s) : Int)

/-- Exact value `(m, e)` with value `m × 10^e` of a syntactically valid decimal
float literal body. -/
def decMantissaExp (s : List Char) : Nat × Int :=
  let intPart := s.takeWhile digitOrUnderscore
  let rest1 := s.drop intPart.length
  match rest1 with
  | '.' :: rest2 =>
    let frac := rest2.takeWhile digitOrUnderscore
    let rest3 := rest2.drop frac.length
    let m := digitsToNat (stripUnderscores (intPart ++ frac))
    let fl : Int := ((stripUnderscores frac).length : Int)
    (match rest3 with
     | [] => (m, -fl)
     | _ :: er => (m, goExpVal er - fl))
  | [] => (digitsToNat (stripUnderscores intPart), 0)
  | _ :: er => (digitsToNat (stripUnderscores intPart), goExpVal er)

/-- Exact value `(m, e)` with value `m × 2^e` of a syntactically valid
hexadecimal float literal body (after the `0x` prefix); each fraction digit
scales by `2^-4`, the `p`-exponent is a power of two. -/
def hexMantissaExp (s : List Char) : Nat × Int :=
  let intPart := s.takeWhile hexOrUnderscore
  let rest1 := s.drop intPart.length
  match rest1 with
  | '.' :: rest2 =>
    let frac := rest2.takeWhile hexOrUnderscore
    let rest3 := rest2.drop frac.length
    let m := hexDigitsToNat (stripUnderscores (intPart ++ frac))
    let fl : Int := ((stripUnderscores frac).length : Int)
    (match rest3 with
     | [] => (m, -4 * fl)
     | _ :: er => (m, goExpVal er - 4 * fl))
  | [] => (hexDigitsToNat (stripUnderscores intPart), 0)
  | _ :: er => (hexDigitsToNat (stripUnderscores intPart), goExpVal er)

/-- The smallest magnitude that IEEE-754 binary64 round-to-nearest-even sends
to infinity: the midpoint between the largest finite value `2^1024 - 2^971`
and `2^1024`.  `ParseFloat` is correctly rounded, so it reports `ErrRange`
exactly when the literal's exact magnitude reaches this boundary (underflow
rounds to zero or a denormal with a nil error). -/
def float64OverflowBoundary : Nat := 2 ^ 1024 - 2 ^ 970

/-- Whether `m × base^e` reaches the binary64 overflow boundary. -/
def scaledOverflow (base m : Nat) (e : Int) : Bool :=
  if 0 ≤ e then decide (float64OverflowBoundary ≤ m * base ^ e.toNat)
  else decide (float64OverflowBoundary * base ^ (-e).toNat ≤ m)

/-- Whether a decimal float literal body is within the binary64 range. -/
def decInRange (s : List Char) : Bool :=
  !scaledOverflow 10 (decMantissaExp s).1 (decMantissaExp s).2

/-- Whether a hexadecimal float literal body is within the binary64 range. -/
def hexInRange (s : List Char) : Bool :=
  !scaledOverflow 2 (hexMantissaExp s).1 (hexMantissaExp s).2

/-- Whether `strconv.ParseFloat(s, 64)` succeeds with a nil error: the special
values (signed `inf`/`infinity`, unsigned `nan`, case-insensitively), or a
decimal or `0x`-prefixed hexadecimal float literal with valid underscore
placement whose exact magnitude stays below the overflow boundary — an
out-of-range literal such as `1e309` or `0x1p1024` is a `ErrRange` failure and
is rejected here too. -/
def goParseFloatOk (s : List Char) : Bool :=
  match s with
  | [] => false
  | c :: rest =>
    let signed := c = '+' || c = '-'
    let body := if signed then rest else s
    let lower := body.map goToLowerChar
    if lower == "inf".data || lower == "infinity".data then true
    else if !signed && lower == "nan".data then true
    else
      (match body with
       | '0' :: x :: hexRest =>
         if x = 'x' || x = 'X' then hexBodyOk hexRest && hexInRange hexRest
         else decBodyOk body && decInRange body
       | _ => decBodyOk body && decInRange body) && underscoreOK s

/-- `detectValueType`: infer the write type tag from a Go value. -/
def detectValueType : GoValue → List Char
  | .null => "string".data
  | .boolv _ => "bool".data
  | .intv _ _ => "number".data
  | .floatv _ => "number".data
  | .str s =>
    if s.head? = some '=' then "formula".data
    else if goParseFloatOk s then "number".data
    else if (goParseBool s).isSome then "bool".data
    else "string".data
  | .other _ => "string".data

/-- `fmt.Sprintf("%v", n)` for a Go integer. -/
def intToChars (n : Int) : List Char :=
  if n < 0 then '-' :: natToDigits n.natAbs else natToDigits n.toNat

/-- `fmt.Sprintf("%v", value)`: the default textual conversion.  A `nil`
interface prints `<nil>`. -/
def goFormatValue : GoValue → List Char
  | .null => "<nil>".data
  | .boolv true => "true".data
  | .boolv false => "false".data
  | .intv _ n => intToChars n
  | .floatv rep => rep
  | .str s => s
  | .other rep => rep

/-- The cell mutation `setCellWithType` performs on success: which typed setter
ran and with what payload.  The numeric setter's `float64` argument is
abstracted by the source value it was converted from. -/
inductive CellWrite where
  | asString (s : List Char)
  | asNumber (v : GoValue)
  | asBool (b : Bool)
  | asFormula (s : List Char)
deriving Repr, DecidableEq

/-- `setCellWithType`: resolve `auto` through `detectValueType`, then dispatch
on the tag.  `none` is the error return.  The numeric branch converts only
`float64`, `float32`, `int`, `int64`, `int32` and numeric strings; every other
shape (including the unsigned and short integer types) is an error. -/
def setCellWithType (value : GoValue) (valueType : List Char) : Option CellWrite :=
  let actualType := if valueType == "auto".data then detectValueType value else valueType
  if actualType == "string".data then some (.asString (goFormatValue value))
  else if actualType == "number".data then
    match value with
    | .floatv _ => some (.asNumber value)
    | .intv .i _ => some (.asNumber value)
    | .intv .i64 _ => some (.asNumber value)
    | .intv .i32 _ => some (.asNumber value)
    | .str s => if goParseFloatOk s then some (.asNumber value) else none
    | _ => none
  else if actualType == "bool".data then
    match value with
    | .boolv b => some (.asBool b)
    | .str s =>
      match goParseBool s with
      | some b => some (.asBool b)
      | none => none
    | _ => none
  else if actualType == "formula".data then
    match value with
    | .str s => some (.asFormula (if s.head? = some '=' then s else '=' :: s))
    | _ => none
  else none

/-- The write the claim's type-resolution table specifies for `Auto`, with the
null clause exactly as the claim words it: `null → String("")`. -/
def claimAutoWrite : GoValue → Option CellWrite
  | .null => some (.asString [])
  | .boolv b => some (.asBool b)
  | .intv t n => some (.asNumber (.intv t n))
  | .floatv rep => some (.asNumber (.floatv rep))
  | .str s =>
    if s.head? = some '=' then some (.asFormula s)
    else if goParseFloatOk s then some (.asNumber (.str s))
    else
      match goParseBool s with
      | some b => some (.asBool b)
      | none => some (.asString s)
  | .other rep => some (.asString rep)

/-- The amended type-resolution table: null is written as the string `<nil>`
(Go's default rendering of a nil interface), and only the integer widths the
numeric setter converts (`int`, `int32`, `int64`) become numbers — the short
and unsigned widths are detected as numbers but their write fails. -/
def amendedAutoWrite : GoValue → Option CellWrite
  | .null => some (.asString "<nil>".data)
  | .boolv b => some (.asBool b)
  | .intv t n =>
    if t == GoIntKind.i || t == GoIntKind.i64 || t == GoIntKind.i32 then
      some (.asNumber (.intv t n))
    else none
  | .floatv rep => some (.asNumber (.floatv rep))
  | .str s =>
    if s.head? = some '=' then some (.asFormula s)
    else if goParseFloatOk s then some (.asNumber (.str s))
    else
      match goParseBool s with
      | some b => some (.asBool b)
      | none => some (.asString s)
  | .other rep => some (.asString rep)

/-! ### Atomic save (`SaveFileAtomic` of writer.go)

The filesystem slice the function touches: the target path's content and the
sibling `<base>.tmp`.  Each fallible step carries an injected failure flag; the
returned error names the step that failed (the original error is wrapped and
surfaced). -/

/-- Which step of the atomic save fails first. -/
inductive SaveStepName where
  | mkdirStep | createStep | writeStep | closeStep | renameStep
deriving Repr, DecidableEq

/-- Failure injection for the five fallible steps. -/
structure SaveFailures where
  mkdirFails : Bool
  createFails : Bool
  writeFails : Bool
  closeFails : Bool
  renameFails : Bool
deriving Repr, DecidableEq

/-- The filesystem slice: target content (if the target exists), whether the
`.tmp` sibling exists, and its content when fully written. -/
structure SaveFS (α : Type) where
  target : Option α
  tmpPresent : Bool
  tmpContent : Option α
deriving Repr, DecidableEq

/-- `SaveFileAtomic`: ensure the directory, create the temp file, write the
workbook to it, close it, rename it over the target.  On any failure the temp
file is removed and the original error returned; only the final rename touches
the target, atomically. -/
def saveFileAtomic (fl : SaveFailures) (content : α) (fs : SaveFS α) :
    SaveFS α × Option SaveStepName :=
  if fl.mkdirFails then (fs, some .mkdirStep)
  else if fl.createFails then (fs, some .createStep)
  else
    let fs1 : SaveFS α := { fs with tmpPresent := true, tmpContent := none }
    if fl.writeFails then
      ({ fs1 with tmpPresent := false, tmpContent := none }, some .writeStep)
    else
      let fs2 : SaveFS α := { fs1 with tmpContent := some content }
      if fl.closeFails then
        ({ fs2 with tmpPresent := false, tmpContent := none }, some .closeStep)
      else if fl.renameFails then
        ({ fs2 with tmpPresent := false, tmpContent := none }, some .renameStep)
      else
        ({ target := some content, tmpPresent := false, tmpContent := none }, none)

/-! ### `WriteRange` (writer.go) -/

/-- The range-write cell cap (`MaxWriteRangeCells`). -/
def maxWriteRangeCells : Nat := 10000

/-- Outcome of `WriteRange` when it returns. -/
inductive WriteRangeOutcome where
  | ok (rangeSummary : List Char) (totalCells : Nat)
  | cellLimitError
  | addrError
  | writeError
deriving Repr, DecidableEq

/-- `WriteRange`: check the cell cap, parse the start cell, write every value
with `auto` type detection, then compute the reported end cell from
`data[0]` — an index that panics (`none`) when the data array is empty; the
`len(data) == 0` fallback in the source sits after that index and is dead. -/
def writeRange (startCell : List Char) (data : List (List GoValue)) :
    Option WriteRangeOutcome :=
  let totalCells := (data.map List.length).sum
  if totalCells > maxWriteRangeCells then some .cellLimitError
  else
    match parseCellAddress startCell with
    | none => some .addrError
    | some (startCol, startRow) =>
      if data.any (fun row => row.any (fun v => (setCellWithType v "auto".data).isNone)) then
        some .writeError
      else
        match data.head? with
        | none => none
        | some row0 =>
          let endCol := startCol + (row0.length : Int) - 1
          let endRow := startRow + (data.length : Int) - 1
          some (.ok
            (formatCellAddress startCol.toNat startRow.toNat ++
              ':' :: formatCellAddress endCol.toNat endRow.toNat)
            totalCells)

/-! ### Sandbox (`ValidateFilePath` of security.go)

`filepath.Abs` and `filepath.EvalSymlinks` are filesystem oracles; the
embedding is parameterised over them (`absf` total, `resolve` partial — `none`
is a resolution failure, including a non-existent file). -/

/-- The path separator. -/
def pathSep : Char := '/'

/-- `ValidateFilePath`: reject empty input, make absolute, resolve symlinks,
then accept iff the resolved path equals a resolved allow-list entry or lies
strictly beneath one (prefix with separator); the allow-list defaults to the
working directory when unconfigured.  Entries that fail to resolve are
skipped. -/
def validateFilePath (resolve : List Char → Option (List Char))
    (absf : List Char → List Char) (cwd : List Char)
    (allowed : List (List Char)) (p : List Char) : Option (List Char) :=
  if p.isEmpty then none
  else
    match resolve (absf p) with
    | none => none
    | some realPath =>
      let basePaths := if allowed.isEmpty then [cwd] else allowed
      if basePaths.any (fun base =>
          match resolve (absf base) with
          | none => false
          | some realBase =>
            (realBase ++ [pathSep]).isPrefixOf realPath || realPath == realBase)
      then some realPath else none

/-! ### The streaming producer's channel discipline (`StreamRows`, stream.go
variant without a cancellation branch)

The producer goroutine sends one `RowResult` per row on an unbuffered channel:
a send completes only when the consumer performs a matching receive.  The
state tracks the rows still to be sent and the receives the consumer will
still perform; `closed` is the producer's `defer close(ch); defer rows.Close()`
having run (the goroutine returned). -/

/-- Producer/consumer state for one `StreamRows` call. -/
structure ChanState where
  pendingRows : Nat
  pulls : Nat
  closed : Bool
deriving Repr, DecidableEq

/-- The producer's possible transitions: a rendezvous send (needs a pull), or
returning after the last row (closing the channel and the row iterator). -/
inductive ProducerStep : ChanState → ChanState → Prop
  | send (p q : Nat) :
      ProducerStep ⟨p + 1, q + 1, false⟩ ⟨p, q, false⟩
  | finish (q : Nat) :
      ProducerStep ⟨0, q, false⟩ ⟨0, q, true⟩

/-! ## General helper lemmas -/

theorem charOfNat_toNat {n : Nat} (h : n < 55296) : (Char.ofNat n).toNat = n := by
  unfold Char.ofNat
  rw [dif_pos (Or.inl h)]
  rfl

theorem map_eq_self_of_fix {f : Char → Char} :
    ∀ {l : List Char}, (∀ c ∈ l, f c = c) → l.map f = l
  | [], _ => rfl
  | a :: t, h => by
    rw [List.map_cons, h a (List.mem_cons_self a t),
      map_eq_self_of_fix (fun c hc => h c (List.mem_cons_of_mem a hc))]

theorem dropWhile_eq_self_of_head {p : Char → Bool} {l : List Char}
    (h : ∀ c ∈ l, p c = false) : l.dropWhile p = l := by
  cases l with
  | nil => rfl
  | cons a t => rw [List.dropWhile_cons, h a (List.mem_cons_self a t)]; simp

theorem goTrimSpace_eq_self {l : List Char} (h : ∀ c ∈ l, goIsSpace c = false) :
    goTrimSpace l = l := by
  unfold goTrimSpace
  rw [dropWhile_eq_self_of_head h,
    dropWhile_eq_self_of_head (fun c hc => h c (List.mem_reverse.mp hc)),
    List.reverse_reverse]

theorem takeWhile_congr_of {p q : Char → Bool} :
    ∀ {l : List Char}, (∀ c ∈ l, p c = q c) → l.takeWhile p = l.takeWhile q
  | [], _ => rfl
  | a :: t, h => by
    rw [List.takeWhile_cons, List.takeWhile_cons, h a (List.mem_cons_self a t),
      takeWhile_congr_of (fun c hc => h c (List.mem_cons_of_mem a hc))]

theorem takeWhile_eq_self_of_all {p : Char → Bool} :
    ∀ {l : List Char}, (∀ c ∈ l, p c = true) → l.takeWhile p = l
  | [], _ => rfl
  | a :: t, h => by
    rw [List.takeWhile_cons, h a (List.mem_cons_self a t)]
    simp only [if_true]
    rw [takeWhile_eq_self_of_all (fun c hc => h c (List.mem_cons_of_mem a hc))]

theorem takeWhile_append_head_false {p : Char → Bool} {xs : List Char} {d : Char}
    {ds : List Char} (hxs : ∀ c ∈ xs, p c = true) (hd : p d = false) :
    (xs ++ d :: ds).takeWhile p = xs := by
  induction xs with
  | nil => rw [List.nil_append, List.takeWhile_cons, hd]; simp
  | cons a t ih =>
    rw [List.cons_append, List.takeWhile_cons, hxs a (List.mem_cons_self a t)]
    simp only [if_true]
    rw [ih (fun c hc => hxs c (List.mem_cons_of_mem a hc))]

/-! ## C6: address-parsing acceptance -/

theorem goToUpperChar_not_lower (c : Char) :
    ¬(97 ≤ (goToUpperChar c).toNat ∧ (goToUpperChar c).toNat ≤ 122) := by
  unfold goToUpperChar
  by_cases h : (97 ≤ c.toNat && c.toNat ≤ 122) = true
  · rw [if_pos h]
    simp only [Bool.and_eq_true, decide_eq_true_eq] at h
    rw [charOfNat_toNat (by omega)]
    omega
  · rw [if_neg h]
    simp only [Bool.and_eq_true, decide_eq_true_eq, not_and, not_le] at h
    omega

theorem trimmed_upper_no_lower (s : List Char) :
    ∀ c ∈ goTrimSpace (s.map goToUpperChar), ¬(97 ≤ c.toNat ∧ c.toNat ≤ 122) := by
  intro c hc
  unfold goTrimSpace at hc
  rw [List.mem_reverse] at hc
  have h1 := (List.dropWhile_sublist goIsSpace).mem hc
  rw [List.mem_reverse] at h1
  have h2 := (List.dropWhile_sublist goIsSpace).mem h1
  obtain ⟨c0, _, rfl⟩ := List.mem_map.mp h2
  exact goToUpperChar_not_lower c0

theorem letters_takeWhile_eq (s : List Char) :
    (goTrimSpace (s.map goToUpperChar)).takeWhile isAsciiLetter =
      (goTrimSpace (s.map goToUpperChar)).takeWhile (fun c => 65 ≤ c.toNat && c.toNat ≤ 90) := by
  refine takeWhile_congr_of (fun c hc => ?_)
  have h := trimmed_upper_no_lower s c hc
  unfold isAsciiLetter
  have h2 : (97 ≤ c.toNat && c.toNat ≤ 122) = false := by
    simp only [Bool.and_eq_false_iff, decide_eq_false_iff_not, not_le]
    omega
  rw [h2, Bool.or_false]

/-- C6: the claim's acceptance condition is refuted by the input `"A01"`: the
code accepts it (column 1, row 1) although its trimmed uppercased form does
not match `[A-Z]+[1-9][0-9]*`. -/
theorem parse_address_claim_counterexample :
    parseCellAddress "A01".data = some (1, 1) ∧
      specAddrPattern (goTrimSpace (("A01".data).map goToUpperChar)) = false := by
  constructor <;> rfl

/-- C6 (amended): `ParseCellAddress` trims surrounding white space and
uppercases letters, and accepts exactly the inputs whose normalized form
matches `[A-Z]+[0-9]+` with the digit run's decimal value at least 1 (leading
zeros tolerated) and within the signed 64-bit range; every other input is an
error. -/
theorem parse_address_accepts_iff (s : List Char) :
    (parseCellAddress s).isSome = true ↔
      amendedAddrPattern (goTrimSpace (s.map goToUpperChar)) = true := by
  unfold parseCellAddress amendedAddrPattern goAtoiDigits
  dsimp only
  rw [letters_takeWhile_eq s]
  set a := goTrimSpace (s.map goToUpperChar) with ha
  set L := a.takeWhile (fun c => 65 ≤ c.toNat && c.toNat ≤ 90) with hL
  set D := a.drop L.length with hD
  by_cases h1 : L.isEmpty
  · simp [h1]
  · by_cases h2 : D.isEmpty
    · simp [h1, h2]
    · by_cases h3 : D.all isDigitChar
      · simp only [h1, h2, h3, Bool.not_true, Bool.false_or, Bool.or_false,
          if_false, Bool.not_false, Bool.true_and, Bool.and_true]
        simp only [Bool.false_eq_true, if_false]
        by_cases h4 : (digitsToNat D : Int) ≤ 2 ^ 63 - 1
        · rw [if_pos h4]
          dsimp only
          by_cases h5 : (digitsToNat D : Int) < 1
          · rw [if_pos h5]
            have hv : ¬(1 ≤ digitsToNat D) := by omega
            simp [hv]
          · rw [if_neg h5]
            have hv1 : 1 ≤ digitsToNat D := by omega
            have hv2 : digitsToNat D ≤ 2 ^ 63 - 1 := by omega
            simp [hv1, hv2]
            omega
        · rw [if_neg h4]
          have hv : ¬(digitsToNat D ≤ 2 ^ 63 - 1) := by omega
          simp only [Option.isSome_none, Bool.false_eq_true, false_iff]
          simp only [Bool.and_eq_true, decide_eq_true_eq, not_and]
          intro _
          omega
      · simp [h1, h2, h3]

/-! ## C7: the address codec round-trip -/

theorem columnNumberToNameAux_zero (fuel : Nat) : columnNumberToNameAux fuel 0 = [] := by
  cases fuel <;> rfl

theorem columnNumberToNameAux_fuel :
    ∀ (fuel₁ fuel₂ n : Nat), n ≤ fuel₁ → n ≤ fuel₂ →
      columnNumberToNameAux fuel₁ n = columnNumberToNameAux fuel₂ n := by
  intro fuel₁
  induction fuel₁ with
  | zero =>
    intro fuel₂ n h1 _
    have hn : n = 0 := by omega
    subst hn
    rw [columnNumberToNameAux_zero, columnNumberToNameAux_zero]
  | succ f ih =>
    intro fuel₂ n h1 h2
    cases n with
    | zero => rw [columnNumberToNameAux_zero, columnNumberToNameAux_zero]
    | succ m =>
      cases fuel₂ with
      | zero => omega
      | succ g =>
        show columnNumberToNameAux f (m / 26) ++ _ = columnNumberToNameAux g (m / 26) ++ _
        rw [ih g (m / 26) (by omega) (by omega)]

theorem columnNumberToName_succ (n : Nat) :
    columnNumberToName (n + 1) =
      columnNumberToName (n / 26) ++ [Char.ofNat (65 + n % 26)] := by
  unfold columnNumberToName
  show columnNumberToNameAux n (n / 26) ++ _ = _
  rw [columnNumberToNameAux_fuel n (n / 26) (n / 26) (by omega) le_rfl]

theorem columnNumberToName_chars (col : Nat) :
    ∀ c ∈ columnNumberToName col, 65 ≤ c.toNat ∧ c.toNat ≤ 90 := by
  induction col using Nat.strong_induction_on with
  | _ col ih =>
    match col with
    | 0 => intro c hc; exact absurd hc (by simp [columnNumberToName, columnNumberToNameAux])
    | n + 1 =>
      intro c hc
      rw [columnNumberToName_succ] at hc
      rcases List.mem_append.mp hc with h | h
      · exact ih (n / 26) (by omega) c h
      · have hce : c = Char.ofNat (65 + n % 26) := by simpa using h
        subst hce
        have hm : n % 26 < 26 := Nat.mod_lt _ (by omega)
        rw [charOfNat_toNat (by omega)]
        omega

theorem columnNumberToName_ne_nil {col : Nat} (h : 1 ≤ col) : columnNumberToName col ≠ [] := by
  match col, h with
  | n + 1, _ => rw [columnNumberToName_succ]; simp

theorem name_foldl_val (col : Nat) :
    ∀ r : Nat, (columnNumberToName col).foldl (fun q c => q * 26 + (c.toNat - 64)) r =
      r * 26 ^ (columnNumberToName col).length + col := by
  induction col using Nat.strong_induction_on with
  | _ col ih =>
    match col with
    | 0 => intro r; simp [columnNumberToName, columnNumberToNameAux]
    | n + 1 =>
      intro r
      rw [columnNumberToName_succ, List.foldl_append, ih (n / 26) (by omega) r]
      have hm : n % 26 < 26 := Nat.mod_lt _ (by omega)
      simp only [List.foldl_cons, List.foldl_nil, List.length_append, List.length_cons,
        List.length_nil, List.length_singleton]
      rw [charOfNat_toNat (by omega), pow_succ, ← Nat.mul_assoc]
      have hdm := Nat.div_add_mod n 26
      omega

theorem goToUpperChar_eq_self_of_nonlower {c : Char} (h : ¬(97 ≤ c.toNat ∧ c.toNat ≤ 122)) :
    goToUpperChar c = c := by
  unfold goToUpperChar
  have hb : (97 ≤ c.toNat && c.toNat ≤ 122) = false := by
    simp only [Bool.and_eq_false_iff, decide_eq_false_iff_not, not_le]
    omega
  simp [hb]

theorem int64Wrap_eq_self {x : Int} (h0 : 0 ≤ x) (h1 : x ≤ 2 ^ 63 - 1) : int64Wrap x = x := by
  unfold int64Wrap
  omega

theorem name_foldl_ge (l : List Char) :
    ∀ r : Nat, (∀ c ∈ l, 65 ≤ c.toNat) →
      r ≤ l.foldl (fun q c => q * 26 + (c.toNat - 64)) r := by
  induction l with
  | nil => intro r _; exact le_rfl
  | cons a t ih =>
    intro r h
    rw [List.foldl_cons]
    have ha := h a (List.mem_cons_self a t)
    calc r ≤ r * 26 + (a.toNat - 64) := by omega
      _ ≤ _ := ih _ (fun c hc => h c (List.mem_cons_of_mem a hc))

theorem name_int_foldl_eq (l : List Char) :
    ∀ r : Nat, (∀ c ∈ l, 65 ≤ c.toNat ∧ c.toNat ≤ 90) →
      l.foldl (fun q c => q * 26 + (c.toNat - 64)) r ≤ 2 ^ 63 - 1 →
      l.foldl (fun q c => int64Wrap (q * 26 + (((goToUpperChar c).toNat : Int) - 64))) (r : Int) =
        ((l.foldl (fun q c => q * 26 + (c.toNat - 64)) r : Nat) : Int) := by
  induction l with
  | nil => intro r _ _; rfl
  | cons a t ih =>
    intro r h hb
    rw [List.foldl_cons, List.foldl_cons] at *
    have ha := h a (List.mem_cons_self a t)
    rw [goToUpperChar_eq_self_of_nonlower (by omega)]
    have hstep : (r : Int) * 26 + ((a.toNat : Int) - 64) =
        ((r * 26 + (a.toNat - 64) : Nat) : Int) := by omega
    rw [hstep]
    have hm := name_foldl_ge t (r * 26 + (a.toNat - 64))
      (fun c hc => (h c (List.mem_cons_of_mem a hc)).1)
    rw [int64Wrap_eq_self (by omega) (by omega)]
    exact ih _ (fun c hc => h c (List.mem_cons_of_mem a hc)) hb

theorem columnNameToNumber_roundtrip {col : Nat} (h : col ≤ 2 ^ 63 - 1) :
    columnNameToNumber (columnNumberToName col) = (col : Int) := by
  unfold columnNameToNumber
  have hv := name_foldl_val col 0
  simp only [zero_mul, Nat.zero_add] at hv
  have hi := name_int_foldl_eq (columnNumberToName col) 0 (columnNumberToName_chars col)
    (by rw [hv]; exact h)
  rw [hv] at hi
  simpa using hi

theorem natToDigitsAux_fuel :
    ∀ (f₁ f₂ n : Nat), n ≤ f₁ → n ≤ f₂ → natToDigitsAux f₁ n = natToDigitsAux f₂ n := by
  intro f₁
  induction f₁ with
  | zero =>
    intro f₂ n h1 _
    have hn : n = 0 := by omega
    subst hn
    cases f₂ with
    | zero => rfl
    | succ g => simp [natToDigitsAux]
  | succ f ih =>
    intro f₂ n h1 h2
    by_cases hn : n < 10
    · cases f₂ with
      | zero =>
        have h0 : n = 0 := by omega
        subst h0
        simp [natToDigitsAux]
      | succ g => simp [natToDigitsAux, hn]
    · cases f₂ with
      | zero => omega
      | succ g =>
        simp only [natToDigitsAux, hn, if_false]
        rw [ih g (n / 10) (by omega) (by omega)]

theorem natToDigits_eq (n : Nat) :
    natToDigits n = if n < 10 then [Char.ofNat (48 + n)]
      else natToDigits (n / 10) ++ [Char.ofNat (48 + n % 10)] := by
  unfold natToDigits
  by_cases hn : n < 10
  · match n with
    | 0 => simp [natToDigitsAux]
    | m + 1 => simp [natToDigitsAux, hn]
  · rw [if_neg hn]
    match n, hn with
    | m + 1, hn =>
      simp only [natToDigitsAux, hn, if_false]
      rw [natToDigitsAux_fuel m ((m + 1) / 10) ((m + 1) / 10) (by omega) le_rfl]

theorem natToDigits_chars (n : Nat) : ∀ c ∈ natToDigits n, 48 ≤ c.toNat ∧ c.toNat ≤ 57 := by
  induction n using Nat.strong_induction_on with
  | _ n ih =>
    rw [natToDigits_eq]
    by_cases hn : n < 10
    · rw [if_pos hn]
      intro c hc
      have hce : c = Char.ofNat (48 + n) := by simpa using hc
      subst hce
      rw [charOfNat_toNat (by omega)]
      omega
    · rw [if_neg hn]
      intro c hc
      rcases List.mem_append.mp hc with h | h
      · exact ih (n / 10) (by omega) c h
      · have hce : c = Char.ofNat (48 + n % 10) := by simpa using h
        subst hce
        have hm : n % 10 < 10 := Nat.mod_lt _ (by omega)
        rw [charOfNat_toNat (by omega)]
        omega

theorem natToDigits_ne_nil (n : Nat) : natToDigits n ≠ [] := by
  rw [natToDigits_eq]
  by_cases hn : n < 10 <;> simp [hn]

theorem digits_foldl_val (n : Nat) :
    ∀ r : Nat, (natToDigits n).foldl (fun q c => q * 10 + (c.toNat - 48)) r =
      r * 10 ^ (natToDigits n).length + n := by
  induction n using Nat.strong_induction_on with
  | _ n ih =>
    intro r
    rw [natToDigits_eq]
    by_cases hn : n < 10
    · rw [if_pos hn]
      simp only [List.foldl_cons, List.foldl_nil, List.length_cons, List.length_nil,
        List.length_singleton]
      rw [charOfNat_toNat (by omega), pow_one]
      omega
    · rw [if_neg hn, List.foldl_append, ih (n / 10) (by omega) r]
      have hm : n % 10 < 10 := Nat.mod_lt _ (by omega)
      simp only [List.foldl_cons, List.foldl_nil, List.length_append, List.length_cons,
        List.length_nil, List.length_singleton]
      rw [charOfNat_toNat (by omega), pow_succ, ← Nat.mul_assoc]
      have hdm := Nat.div_add_mod n 10
      omega

theorem digitsToNat_natToDigits (n : Nat) : digitsToNat (natToDigits n) = n := by
  unfold digitsToNat
  have h := digits_foldl_val n 0
  simpa using h

/-- C7: for every column 1..18278 and every representable row ≥ 1, parsing the
formatted address returns exactly the pair that was formatted. -/
theorem format_parse_roundtrip (col row : Nat) (hc1 : 1 ≤ col) (hc2 : col ≤ 18278)
    (hr1 : 1 ≤ row) (hr2 : row ≤ 2 ^ 63 - 1) :
    parseCellAddress (formatCellAddress col row) = some ((col : Int), (row : Int)) := by
  have hname := columnNumberToName_chars col
  have hdig := natToDigits_chars row
  unfold parseCellAddress formatCellAddress
  dsimp only
  have hmap : (columnNumberToName col ++ natToDigits row).map goToUpperChar =
      columnNumberToName col ++ natToDigits row := by
    apply map_eq_self_of_fix
    intro c hc
    rcases List.mem_append.mp hc with h | h
    · exact goToUpperChar_eq_self_of_nonlower (by have := hname c h; omega)
    · exact goToUpperChar_eq_self_of_nonlower (by have := hdig c h; omega)
  have htrim : goTrimSpace (columnNumberToName col ++ natToDigits row) =
      columnNumberToName col ++ natToDigits row := by
    apply goTrimSpace_eq_self
    intro c hc
    unfold goIsSpace
    simp only [Bool.or_eq_false_iff, decide_eq_false_iff_not]
    rcases List.mem_append.mp hc with h | h
    · have := hname c h; omega
    · have := hdig c h; omega
  rw [hmap, htrim]
  obtain ⟨d, ds, hds⟩ : ∃ d ds, natToDigits row = d :: ds := by
    cases hcase : natToDigits row with
    | nil => exact absurd hcase (natToDigits_ne_nil row)
    | cons d ds => exact ⟨d, ds, rfl⟩
  have htw : (columnNumberToName col ++ natToDigits row).takeWhile isAsciiLetter =
      columnNumberToName col := by
    rw [hds]
    apply takeWhile_append_head_false
    · intro c hc
      have := hname c hc
      unfold isAsciiLetter
      simp only [Bool.or_eq_true, Bool.and_eq_true, decide_eq_true_eq]
      omega
    · have hd : d ∈ natToDigits row := by rw [hds]; exact List.mem_cons_self d ds
      have := hdig d hd
      unfold isAsciiLetter
      simp only [Bool.or_eq_false_iff, Bool.and_eq_false_iff, decide_eq_false_iff_not, not_le]
      omega
  rw [htw, List.drop_left]
  have hne1 : (columnNumberToName col).isEmpty = false := by
    cases hcase : columnNumberToName col with
    | nil => exact absurd hcase (columnNumberToName_ne_nil hc1)
    | cons a t => rfl
  have hne2 : (natToDigits row).isEmpty = false := by
    rw [hds]; rfl
  have hall : (natToDigits row).all isDigitChar = true := by
    rw [List.all_eq_true]
    intro c hc
    have := hdig c hc
    unfold isDigitChar
    simp only [Bool.and_eq_true, decide_eq_true_eq]
    omega
  rw [hne1, hne2, hall]
  simp only [Bool.false_or, Bool.or_false, Bool.not_true, Bool.false_eq_true, if_false]
  unfold goAtoiDigits
  rw [hne2, hall]
  simp only [Bool.false_eq_true, if_false, Bool.not_true]
  rw [digitsToNat_natToDigits]
  rw [if_pos (by omega : (row : Int) ≤ 2 ^ 63 - 1)]
  dsimp only
  rw [if_neg (by omega : ¬((row : Int) < 1))]
  rw [columnNameToNumber_roundtrip (by omega)]

/-- C7 witness: the codec round-trips at column 28 (`AB`), row 5. -/
theorem format_parse_roundtrip_witness :
    1 ≤ 28 ∧ 28 ≤ 18278 ∧ 1 ≤ 5 ∧ 5 ≤ 2 ^ 63 - 1 ∧
      parseCellAddress (formatCellAddress 28 5) = some (28, 5) :=
  ⟨by decide, by decide, by decide, by norm_num,
    format_parse_roundtrip 28 5 (by decide) (by decide) (by decide) (by norm_num)⟩

/-! ## C2: atomic save -/

/-- C2: whenever `SaveFileAtomic` fails at any step between writing the
temporary file and the final rename (the write, the close, or the rename
itself), the target's previous content is unchanged, no `.tmp` file remains,
and the original (first-failing-step) error is surfaced. -/
theorem save_file_atomic_failure_safe {α : Type} (fl : SaveFailures) (content : α)
    (fs : SaveFS α) (hm : fl.mkdirFails = false) (hc : fl.createFails = false)
    (hfail : fl.writeFails = true ∨ fl.closeFails = true ∨ fl.renameFails = true) :
    (saveFileAtomic fl content fs).1.target = fs.target ∧
      (saveFileAtomic fl content fs).1.tmpPresent = false ∧
      (saveFileAtomic fl content fs).2 =
        some (if fl.writeFails then SaveStepName.writeStep
              else if fl.closeFails then SaveStepName.closeStep
              else SaveStepName.renameStep) := by
  obtain ⟨m, c, w, cl, r⟩ := fl
  simp only at hm hc
  subst hm
  subst hc
  cases w <;> cases cl <;> cases r <;>
    simp_all [saveFileAtomic]

/-- C2 witness: a rename failure over a target holding content `7` leaves the
target at `7`, no temporary behind, and surfaces the rename error. -/
theorem save_file_atomic_failure_safe_witness :
    (saveFileAtomic ⟨false, false, false, false, true⟩ (5 : Nat)
        ⟨some 7, false, none⟩).1.target = some 7 ∧
      (saveFileAtomic ⟨false, false, false, false, true⟩ (5 : Nat)
        ⟨some 7, false, none⟩).1.tmpPresent = false ∧
      (saveFileAtomic ⟨false, false, false, false, true⟩ (5 : Nat)
        ⟨some 7, false, none⟩).2 = some SaveStepName.renameStep :=
  save_file_atomic_failure_safe ⟨false, false, false, false, true⟩ 5
    ⟨some 7, false, none⟩ rfl rfl (Or.inr (Or.inr rfl))

/-! ## C4: auto type resolution for cell writes -/

/-- C4 counterexample: with kind `auto`, a null value is written as the string
`<nil>`, not the empty string the claim states; and an unsigned integer
(`uint8 5`), an "integer" in the claim's sense, is not written as a number —
the write errors out. -/
theorem set_cell_auto_claim_counterexample :
    setCellWithType GoValue.null "auto".data = some (CellWrite.asString "<nil>".data) ∧
      claimAutoWrite GoValue.null = some (CellWrite.asString []) ∧
      setCellWithType GoValue.null "auto".data ≠ claimAutoWrite GoValue.null ∧
      setCellWithType (GoValue.intv GoIntKind.u8 5) "auto".data = none ∧
      claimAutoWrite (GoValue.intv GoIntKind.u8 5) =
        some (CellWrite.asNumber (GoValue.intv GoIntKind.u8 5)) := by
  refine ⟨rfl, rfl, ?_, rfl, rfl⟩
  decide

/-- C4 (amended): with kind `auto`, a null value is written as
`String("<nil>")`; a boolean as Bool; an `int`, `int32`, `int64`, or float as
Number (the short and unsigned integer widths are detected as numbers but the
write fails); a string beginning with `=` as Formula; a string `ParseFloat`
accepts as Number; a string `ParseBool` accepts as Bool; any other value as
String. -/
theorem set_cell_auto_resolution (v : GoValue) :
    setCellWithType v "auto".data = amendedAutoWrite v := by
  cases v with
  | null => rfl
  | boolv b => rfl
  | intv t n => cases t <;> rfl
  | floatv rep => rfl
  | str s =>
    by_cases h1 : s.head? = some '='
    · simp [setCellWithType, detectValueType, amendedAutoWrite, h1]
    · by_cases h2 : goParseFloatOk s
      · simp [setCellWithType, detectValueType, amendedAutoWrite, h1, h2]
      · cases h3 : goParseBool s with
        | some b =>
          simp [setCellWithType, detectValueType, amendedAutoWrite, goFormatValue, h1, h2, h3]
        | none =>
          simp [setCellWithType, detectValueType, amendedAutoWrite, goFormatValue, h1, h2, h3]
  | other rep => rfl

/-! ## C9: `WriteRange` on the empty data array -/

/-- C9: on an empty data array (total cell count 0, within every cap), the
end-cell computation indexes `data[0]` and panics instead of returning a
result or a tagged error; the `len(data) == 0` guard in the source sits after
the index and is dead. -/
theorem write_range_empty_data_out_of_bounds :
    writeRange "A1".data ([] : List (List GoValue)) = none ∧
      ((([] : List (List GoValue)).map List.length).sum ≤ maxWriteRangeCells) := by
  constructor
  · rfl
  · decide

/-! ## C8: the abandoned-consumer producer leak -/

/-- C8: a `StreamRows` producer over a 1000-row sheet whose consumer performs
one receive and then abandons the channel reaches, after that single
rendezvous, a state from which no transition exists — the goroutine is blocked
forever on the unbuffered send, never reaching the close of the channel and of
the row iterator. -/
theorem stream_rows_producer_leak :
    Relation.ReflTransGen ProducerStep ⟨1000, 1, false⟩ ⟨999, 0, false⟩ ∧
      (∀ s, ¬ ProducerStep ⟨999, 0, false⟩ s) ∧
      (⟨999, 0, false⟩ : ChanState).closed = false := by
  refine ⟨Relation.ReflTransGen.single (ProducerStep.send 999 0), ?_, rfl⟩
  intro s h
  cases h

/-- C8 witness: the stuck state admits no send transition. -/
theorem stream_rows_producer_leak_witness :
    ¬ ProducerStep ⟨999, 0, false⟩ ⟨998, 0, false⟩ :=
  stream_rows_producer_leak.2.1 ⟨998, 0, false⟩

/-! ## C1: sandbox read closedness -/

/-- C1: under a canonical allow-list (each entry absolute and a fixed point of
symlink resolution, as `InitAllowedPaths` guarantees), `ValidateFilePath`
returns a path `q` exactly when the input is non-empty, `q` is the
symlink-resolved absolute form of the input, and `q` equals some allow-list
entry or lies strictly beneath one (separator-aware prefix); every resolved
path outside all entries is rejected.  An unconfigured allow-list defaults to
the working directory. -/
theorem validate_file_path_closed
    (resolve : List Char → Option (List Char)) (absf : List Char → List Char)
    (cwd : List Char) (allowed : List (List Char)) (p q : List Char)
    (hA : ∀ a ∈ allowed, absf a = a ∧ resolve a = some a)
    (hcwd : absf cwd = cwd ∧ resolve cwd = some cwd) :
    validateFilePath resolve absf cwd allowed p = some q ↔
      (p ≠ [] ∧ resolve (absf p) = some q ∧
        ∃ a ∈ (if allowed.isEmpty then [cwd] else allowed),
          q = a ∨ (a ++ [pathSep]).isPrefixOf q = true) := by
  unfold validateFilePath
  by_cases hp : p.isEmpty
  · simp only [hp, if_true]
    have : p = [] := List.isEmpty_iff.mp hp
    simp [this]
  · rw [if_neg (by simp [hp])]
    have hpne : p ≠ [] := by
      intro hcon
      subst hcon
      exact hp rfl
    cases hr : resolve (absf p) with
    | none => simp [hpne]
    | some realPath =>
      dsimp only
      have hbase : ∀ a ∈ (if allowed.isEmpty then [cwd] else allowed),
          absf a = a ∧ resolve a = some a := by
        intro a ha
        by_cases he : allowed.isEmpty
        · simp only [he, if_true, List.mem_singleton] at ha
          subst ha
          exact hcwd
        · simp only [he, if_false] at ha
          exact hA a ha
      by_cases hany : ((if allowed.isEmpty then [cwd] else allowed).any fun base =>
          match resolve (absf base) with
          | none => false
          | some realBase =>
            (realBase ++ [pathSep]).isPrefixOf realPath || realPath == realBase) = true
      · rw [if_pos hany]
        constructor
        · intro h
          have hq : realPath = q := by simpa using h
          subst hq
          obtain ⟨a, ha, hfa⟩ := List.any_eq_true.mp hany
          obtain ⟨haabs, hares⟩ := hbase a ha
          rw [haabs, hares] at hfa
          simp only [Bool.or_eq_true, beq_iff_eq] at hfa
          refine ⟨hpne, rfl, a, ha, ?_⟩
          rcases hfa with hf | hf
          · exact Or.inr hf
          · exact Or.inl hf
        · rintro ⟨-, hq, -⟩
          exact hq
      · rw [if_neg hany]
        constructor
        · intro h
          exact absurd h (by simp)
        · rintro ⟨-, hq, a, ha, hcase⟩
          exfalso
          apply hany
          refine List.any_eq_true.mpr ⟨a, ha, ?_⟩
          obtain ⟨haabs, hares⟩ := hbase a ha
          rw [haabs, hares]
          have hqr : realPath = q := Option.some.inj hq
          subst hqr
          simp only [Bool.or_eq_true, beq_iff_eq]
          rcases hcase with hf | hf
          · exact Or.inr hf
          · exact Or.inl hf

/-- C1 witness: with allow-list `/tmp/work` (canonical under the concrete
resolution oracle), validating `/tmp/work/a.xlsx` succeeds and returns the
resolved path, which lies strictly beneath the entry. -/
theorem validate_file_path_closed_witness :
    validateFilePath
      (fun s => if s == "/tmp/work".data || s == "/tmp/work/a.xlsx".data ||
                   s == "/cwd".data then some s else none)
      (fun s => s) "/cwd".data ["/tmp/work".data] "/tmp/work/a.xlsx".data =
      some ("/tmp/work/a.xlsx".data) :=
  (validate_file_path_closed _ _ _ _ _ _ (by decide) (by decide)).mpr (by decide)

/-! ## C10: cell field consistency of the streaming reads -/

theorem constructRow_consistent (raw : RawRow) : rowCellsConsistent 1 (constructRow raw) := by
  intro i h
  simp only [constructRow, List.get_eq_getElem, List.getElem_map, List.getElem_enum]
  refine ⟨trivial, trivial, trivial, by omega⟩

theorem streamRowsAux_mem (startRow endRow : Int) :
    ∀ (l : List (List String)) (k : Nat) (r : Row),
      r ∈ streamRowsAux startRow endRow k l → ∃ raw : RawRow, r = constructRow raw := by
  intro l
  induction l with
  | nil => intro k r hr; exact absurd hr (by simp [streamRowsAux])
  | cons cols rest ih =>
    intro k r hr
    unfold streamRowsAux at hr
    by_cases h1 : (startRow > 0 && ((k + 1 : Nat) : Int) < startRow) = true
    · rw [if_pos h1] at hr
      exact ih (k + 1) r hr
    · rw [if_neg h1] at hr
      by_cases h2 : (endRow > 0 && ((k + 1 : Nat) : Int) > endRow) = true
      · rw [if_pos h2] at hr
        exact absurd hr (List.not_mem_nil r)
      · rw [if_neg h2] at hr
        rcases List.mem_cons.mp hr with h | h
        · exact ⟨{ number := k + 1, values := cols }, h⟩
        · exact ih (k + 1) r h

theorem tailExtract_mem (n : Nat) (st : TailState) :
    ∀ r ∈ tailExtract n st, ∃ raw : RawRow, r = constructRow raw := by
  intro r hr
  unfold tailExtract at hr
  split at hr
  · exact absurd hr (List.not_mem_nil r)
  · split at hr
    · obtain ⟨i, _, hco⟩ := List.mem_map.mp hr
      exact ⟨_, hco.symm⟩
    · obtain ⟨i, _, hco⟩ := List.mem_map.mp hr
      exact ⟨_, hco.symm⟩

theorem streamTail_mem (sheetRows : List (List String)) (n : Int) :
    ∀ r ∈ streamTail sheetRows n, ∃ raw : RawRow, r = constructRow raw := by
  intro r hr
  exact tailExtract_mem _ _ r hr

theorem rangeRow_consistent (rng : CellRange) (num : Nat) (cols : List String) :
    rowCellsConsistent rng.startCol { number := num, cells := rangeRowCells rng num cols } := by
  intro i h
  simp only [rangeRowCells, List.get_eq_getElem, List.getElem_map, List.getElem_range']
  exact ⟨trivial, trivial, trivial, by omega⟩

theorem streamRangeAux_mem (rng : CellRange) :
    ∀ (l : List (List String)) (k : Nat) (r : Row),
      r ∈ streamRangeAux rng k l →
        ∃ num cols, r = { number := num, cells := rangeRowCells rng num cols } := by
  intro l
  induction l with
  | nil => intro k r hr; exact absurd hr (by simp [streamRangeAux])
  | cons cols rest ih =>
    intro k r hr
    unfold streamRangeAux at hr
    by_cases h1 : k + 1 < rng.startRow
    · rw [if_pos h1] at hr
      exact ih (k + 1) r hr
    · rw [if_neg h1] at hr
      by_cases h2 : k + 1 > rng.endRow
      · rw [if_pos h2] at hr
        exact absurd hr (List.not_mem_nil r)
      · rw [if_neg h2] at hr
        rcases List.mem_cons.mp hr with h | h
        · exact ⟨k + 1, cols, h⟩
        · exact ih (k + 1) r h

/-- C10: every cell produced by the streaming reads has its address equal to
the formatted (col, row) pair, its row field equal to the containing row's
number, the type tag `string`, and consecutive 1-based column indices starting
at 1 (`StreamRows`, `StreamTail`) or at the range's start column
(`StreamRange`). -/
theorem stream_cells_consistent :
    (∀ (sheetRows : List (List String)) (startRow endRow : Int) (r : Row),
        r ∈ streamRows sheetRows startRow endRow → rowCellsConsistent 1 r) ∧
      (∀ (sheetRows : List (List String)) (n : Int) (r : Row),
        r ∈ streamTail sheetRows n → rowCellsConsistent 1 r) ∧
      (∀ (sheetRows : List (List String)) (rng : CellRange) (r : Row),
        r ∈ streamRange sheetRows rng → rowCellsConsistent rng.startCol r) := by
  refine ⟨?_, ?_, ?_⟩
  · intro sheetRows s e r hr
    obtain ⟨raw, rfl⟩ := streamRowsAux_mem s e sheetRows 0 r hr
    exact constructRow_consistent raw
  · intro sheetRows n r hr
    obtain ⟨raw, rfl⟩ := streamTail_mem sheetRows n r hr
    exact constructRow_consistent raw
  · intro sheetRows rng r hr
    obtain ⟨num, cols, rfl⟩ := streamRangeAux_mem rng sheetRows 0 r hr
    exact rangeRow_consistent rng num cols

/-- C10 witness: the invariant holds for the row streamed out of the
single-row sheet `[["a"]]`. -/
theorem stream_cells_consistent_witness :
    rowCellsConsistent 1 (constructRow { number := 1, values := ["a"] }) :=
  stream_cells_consistent.1 [["a"]] 0 0 (constructRow { number := 1, values := ["a"] })
    (by decide)


/-! ## C5: search scan semantics -/

theorem scanOut_ext {h1 h2 : List SearchHit} {c1 c2 : Nat} {s1 s2 : Bool}
    (hh : h1 = h2) (hc : c1 = c2) (hs : s1 = s2) :
    (⟨h1, c1, s1⟩ : ScanOut) = ⟨h2, c2, s2⟩ := by
  subst hh
  subst hc
  subst hs
  rfl

theorem cellMatches_cons_hit {m : String → Bool} {sheet : List Char} {rowNum i : Nat}
    {v : String} {rest : List (Nat × String)} (hm : ((v != "") && m v) = true) :
    cellMatches m sheet rowNum ((i, v) :: rest) =
      ⟨sheet, formatCellAddress (i + 1) rowNum, v, rowNum, i + 1⟩ ::
        cellMatches m sheet rowNum rest := by
  unfold cellMatches
  rw [List.filterMap_cons]
  simp [hm]

theorem cellMatches_cons_miss {m : String → Bool} {sheet : List Char} {rowNum i : Nat}
    {v : String} {rest : List (Nat × String)} (hm : ¬((v != "") && m v) = true) :
    cellMatches m sheet rowNum ((i, v) :: rest) = cellMatches m sheet rowNum rest := by
  unfold cellMatches
  rw [List.filterMap_cons]
  simp [hm]

theorem scanCells_spec (m : String → Bool) (maxR : Int) (sheet : List Char) (rowNum : Nat) :
    ∀ (cells : List (Nat × String)) (count : Nat), (maxR > 0 → count < maxR.toNat) →
      scanCells m maxR sheet rowNum cells count =
        scanOutSpec maxR count (cellMatches m sheet rowNum cells) := by
  intro cells
  induction cells with
  | nil =>
    intro count hcount
    have hnil : cellMatches m sheet rowNum [] = [] := rfl
    unfold scanCells scanOutSpec
    rw [hnil]
    by_cases hp : maxR > 0
    · rw [if_pos hp]
      have := hcount hp
      refine scanOut_ext List.take_nil.symm (by simp) ?_
      rw [decide_eq_false (by simp only [List.length_nil]; omega)]
    · rw [if_neg hp]
      exact scanOut_ext rfl (by simp) rfl
  | cons p rest ih =>
    intro count hcount
    obtain ⟨i, v⟩ := p
    by_cases hm : ((v != "") && m v) = true
    · rw [cellMatches_cons_hit hm]
      by_cases hstop : (maxR > 0 && ((count : Int) + 1 ≥ maxR)) = true
      · have hsp := hstop
        simp only [Bool.and_eq_true, decide_eq_true_eq] at hsp
        obtain ⟨hp, hge⟩ := hsp
        have hcnt := hcount hp
        unfold scanCells scanOutSpec
        rw [if_pos hm, if_pos hstop, if_pos hp]
        have hk : maxR.toNat - count = 1 := by omega
        rw [hk, List.take_succ_cons, List.take_zero]
        refine scanOut_ext rfl ?_ ?_
        · simp only [List.length_cons]
          omega
        · rw [decide_eq_true (by simp only [List.length_cons]; omega)]
      · have hcount' : maxR > 0 → count + 1 < maxR.toNat := by
          intro hp
          simp only [Bool.and_eq_true, decide_eq_true_eq, not_and, not_le] at hstop
          have h1 := hstop hp
          have h2 := hcount hp
          omega
        unfold scanCells
        rw [if_pos hm, if_neg hstop, ih (count + 1) hcount']
        unfold scanOutSpec
        by_cases hp : maxR > 0
        · rw [if_pos hp, if_pos hp]
          have h1 := hcount' hp
          obtain ⟨k, hk⟩ : ∃ k, maxR.toNat - count = k + 1 :=
            ⟨maxR.toNat - count - 1, by omega⟩
          rw [hk, List.take_succ_cons]
          have hk2 : maxR.toNat - (count + 1) = k := by omega
          rw [hk2]
          refine scanOut_ext rfl ?_ ?_
          · simp only [List.length_cons]
            omega
          · rw [decide_eq_decide]
            simp only [List.length_cons]
            omega
        · rw [if_neg hp, if_neg hp]
          refine scanOut_ext rfl ?_ rfl
          simp only [List.length_cons]
          omega
    · rw [cellMatches_cons_miss hm]
      unfold scanCells
      rw [if_neg hm, ih count hcount]

theorem scanRows_spec (m : String → Bool) (maxR : Int) (sheet : List Char) :
    ∀ (l : List (Nat × List String)) (count : Nat), (maxR > 0 → count < maxR.toNat) →
      scanRows m maxR sheet l count = scanOutSpec maxR count (pairsMatches m sheet l) := by
  intro l
  induction l with
  | nil =>
    intro count hcount
    have hnil : pairsMatches m sheet [] = [] := rfl
    unfold scanRows scanOutSpec
    rw [hnil]
    by_cases hp : maxR > 0
    · rw [if_pos hp]
      have := hcount hp
      refine scanOut_ext List.take_nil.symm (by simp) ?_
      rw [decide_eq_false (by simp only [List.length_nil]; omega)]
    · rw [if_neg hp]
      exact scanOut_ext rfl (by simp) rfl
  | cons p rest ih =>
    intro count hcount
    obtain ⟨rowNum, cols⟩ := p
    have hpm : pairsMatches m sheet ((rowNum, cols) :: rest) =
        cellMatches m sheet rowNum cols.enum ++ pairsMatches m sheet rest := by
      unfold pairsMatches
      rw [List.map_cons, List.flatten_cons]
      rfl
    unfold scanRows
    rw [scanCells_spec m maxR sheet rowNum cols.enum count hcount, hpm]
    set M := cellMatches m sheet rowNum cols.enum with hM
    set R := pairsMatches m sheet rest with hR
    by_cases hp : maxR > 0
    · have hcnt := hcount hp
      unfold scanOutSpec
      rw [if_pos hp, if_pos hp]
      by_cases hstop : (maxR.toNat ≤ count + M.length)
      · rw [decide_eq_true hstop]
        show (⟨_, _, _⟩ : ScanOut) = _
        rw [List.take_append_eq_append_take]
        have h0 : maxR.toNat - count - M.length = 0 := by omega
        rw [h0, List.take_zero, List.append_nil]
        refine scanOut_ext rfl ?_ ?_
        · simp only [List.length_append]
          omega
        · rw [decide_eq_true (by simp only [List.length_append]; omega)]
      · rw [decide_eq_false hstop]
        show (⟨_, _, _⟩ : ScanOut) = _
        have hmin : count + min M.length (maxR.toNat - count) = count + M.length := by omega
        rw [hmin, ih (count + M.length) (by intro _; omega)]
        unfold scanOutSpec
        rw [if_pos hp]
        rw [List.take_append_eq_append_take,
          List.take_of_length_le (by omega : M.length ≤ maxR.toNat - count)]
        have h3 : maxR.toNat - count - M.length = maxR.toNat - (count + M.length) := by omega
        rw [h3]
        refine scanOut_ext rfl ?_ ?_
        · simp only [List.length_append]
          omega
        · rw [decide_eq_decide]
          simp only [List.length_append]
          omega
    · unfold scanOutSpec
      rw [if_neg hp, if_neg hp]
      show (⟨_, _, _⟩ : ScanOut) = _
      rw [ih (count + M.length) (fun hq => absurd hq hp)]
      unfold scanOutSpec
      rw [if_neg hp]
      refine scanOut_ext rfl ?_ rfl
      simp only [List.length_append]
      omega

theorem scanSheets_spec (m : String → Bool) (maxR : Int) :
    ∀ (sheets : List (List Char × List (List String))) (count : Nat),
      (maxR > 0 → count < maxR.toNat) →
      scanSheets m maxR sheets count =
        (if maxR > 0 then (allHits m sheets).take (maxR.toNat - count)
         else allHits m sheets) := by
  intro sheets
  induction sheets with
  | nil =>
    intro count hcount
    unfold scanSheets allHits
    by_cases hp : maxR > 0 <;> simp [hp]
  | cons p rest ih =>
    intro count hcount
    obtain ⟨name, rows⟩ := p
    unfold scanSheets
    rw [scanRows_spec m maxR name (rows.enum.map (fun p => (p.1 + 1, p.2))) count hcount]
    have hchunk : pairsMatches m name (rows.enum.map (fun p => (p.1 + 1, p.2))) =
        (rows.enum.map (fun p => rowHits m name (p.1 + 1) p.2)).flatten := by
      unfold pairsMatches
      rw [List.map_map]
      rfl
    rw [hchunk]
    have hall : allHits m ((name, rows) :: rest) =
        (rows.enum.map (fun p => rowHits m name (p.1 + 1) p.2)).flatten ++ allHits m rest := rfl
    rw [hall]
    set M := (rows.enum.map (fun p => rowHits m name (p.1 + 1) p.2)).flatten with hMdef
    set R := allHits m rest with hRdef
    unfold scanOutSpec
    by_cases hp : maxR > 0
    · have hcnt := hcount hp
      rw [if_pos hp, if_pos hp]
      by_cases hstop : maxR.toNat ≤ count + M.length
      · rw [decide_eq_true hstop]
        show M.take (maxR.toNat - count) = _
        rw [List.take_append_eq_append_take]
        have h0 : maxR.toNat - count - M.length = 0 := by omega
        rw [h0, List.take_zero, List.append_nil]
      · rw [decide_eq_false hstop]
        show M.take (maxR.toNat - count) ++ _ = _
        have hmin : count + min M.length (maxR.toNat - count) = count + M.length := by omega
        rw [hmin, ih (count + M.length) (by intro _; omega), if_pos hp]
        rw [List.take_append_eq_append_take,
          List.take_of_length_le (by omega : M.length ≤ maxR.toNat - count)]
        have h3 : maxR.toNat - count - M.length = maxR.toNat - (count + M.length) := by omega
        rw [h3]
    · rw [if_neg hp, if_neg hp]
      show M ++ _ = _
      rw [ih (count + M.length) (fun hq => absurd hq hp), if_neg hp]

/-- C5: whenever the sheet selection succeeds (the named sheet resolves, or
all sheets are taken when none is named), the hits `Search` produces are
exactly the matching non-empty cells of the selected sheets — one hit per
non-empty cell value the matcher admits — in (sheet-declaration-order, row,
column) order, truncated to exactly `max_results` hits when `max_results` is
positive. -/
theorem search_hits_spec (wb : Workbook) (m : String → Bool) (sheetOpt : List Char)
    (maxResults : Int) (names : List (List Char))
    (hsel : searchSheetSelection wb sheetOpt = some names) :
    search wb m sheetOpt maxResults =
      some (if maxResults > 0
        then (allHits m (names.map (fun n => (n, sheetRowsOf wb n)))).take maxResults.toNat
        else allHits m (names.map (fun n => (n, sheetRowsOf wb n)))) := by
  unfold search
  rw [hsel, Option.map_some']
  rw [scanSheets_spec m maxResults (names.map (fun n => (n, sheetRowsOf wb n))) 0
    (by intro hp; omega)]
  rw [Nat.sub_zero]

/-- C5 witness: on a one-sheet workbook with an always-true matcher and no
cutoff, the scan emits exactly the one non-empty cell as a hit. -/
theorem search_hits_spec_witness :
    search ([("S".data, [["a"]])] : Workbook) (fun _ => true) [] 0 =
      some (if (0 : Int) > 0
        then (allHits (fun _ => true)
          ((["S".data] : List (List Char)).map
            (fun n => (n, sheetRowsOf ([("S".data, [["a"]])] : Workbook) n)))).take (0 : Int).toNat
        else allHits (fun _ => true)
          ((["S".data] : List (List Char)).map
            (fun n => (n, sheetRowsOf ([("S".data, [["a"]])] : Workbook) n)))) :=
  search_hits_spec ([("S".data, [["a"]])] : Workbook) (fun _ => true) [] 0 ["S".data]
    (by decide)

/-! ## C3: tail semantics -/

theorem tailState_ext {b1 b2 : List RawRow} {i1 i2 t1 t2 : Nat}
    (hb : b1 = b2) (hi : i1 = i2) (ht : t1 = t2) :
    (⟨b1, i1, t1⟩ : TailState) = ⟨b2, i2, t2⟩ := by
  subst hb
  subst hi
  subst ht
  rfl

theorem numberedFrom_length (l : List (List String)) :
    ∀ k, (numberedFrom k l).length = l.length := by
  induction l with
  | nil => intro k; rfl
  | cons c rest ih => intro k; simp [numberedFrom, ih]

theorem nat_div_pred {a n : Nat} (ha : 0 < a) (h : a % n ≠ 0) : a / n = (a - 1) / n := by
  by_cases hn : n = 0
  · subst hn; simp
  · have hn0 : 0 < n := by omega
    have hq := Nat.div_add_mod a n
    have hr : a % n < n := Nat.mod_lt a hn0
    have h1 : a - 1 = n * (a / n) + (a % n - 1) := by omega
    have h2 : (a % n - 1) / n = 0 := Nat.div_eq_of_lt (by omega)
    rw [h1, Nat.mul_add_div hn0, h2]
    omega

theorem mod_ne_of_sub {t j n : Nat} (hj : j < n) (hjt : j < t) (hne : j ≠ t % n) :
    (t - j) % n ≠ 0 := by
  intro h0
  obtain ⟨q, hq⟩ := Nat.dvd_of_mod_eq_zero h0
  apply hne
  have ht : t = j + n * q := by omega
  rw [ht, Nat.add_mul_mod_self_left, Nat.mod_eq_of_lt hj]

theorem getD_append_left (d : RawRow) (l : List RawRow) (x : RawRow) (i : Nat)
    (hi : i < l.length) : (l ++ [x]).getD i d = l.getD i d := by
  rw [List.getD_eq_getElem _ _ (by simp; omega), List.getD_eq_getElem _ _ hi]
  exact List.getElem_append_left hi

theorem tailStep_ringState {n : Nat} (hn : 1 ≤ n) (nr : List RawRow) (cols : List String) :
    tailStep n (ringState nr n) cols =
      ringState (nr ++ [{ number := nr.length + 1, values := cols }]) n := by
  unfold tailStep ringState
  dsimp only
  set t := nr.length with ht
  set x : RawRow := { number := t + 1, values := cols } with hx
  have hlen : (nr ++ [x]).length = t + 1 := by simp [ht]
  refine tailState_ext ?_ ?_ ?_
  · apply List.ext_getElem
    · simp
    · intro j hj1 hj2
      have hjn : j < n := by simpa using hj2
      rw [List.getElem_set]
      by_cases hjeq : t % n = j
      · rw [if_pos hjeq]
        rw [List.getElem_map, List.getElem_range]
        unfold ringSlot
        rw [hlen]
        have hcond : j < min (t + 1) n := by
          have := Nat.mod_le t n
          omega
        rw [if_pos hcond]
        have hsub : t + 1 - 1 - j = t - j := by omega
        have htmj : t - j = n * (t / n) := by
          have := Nat.mod_add_div t n
          omega
        rw [hsub, htmj, Nat.mul_div_cancel_left _ (by omega)]
        have hidx : j + n * (t / n) = t := by
          have := Nat.mod_add_div t n
          omega
        rw [hidx, List.getD_eq_getElem _ _ (by omega)]
        exact (List.getElem_concat_length nr x t ht.symm _).symm
      · rw [if_neg hjeq]
        rw [List.getElem_map, List.getElem_range, List.getElem_map, List.getElem_range]
        unfold ringSlot
        rw [hlen, ← ht]
        by_cases hfill : j < min t n
        · rw [if_pos hfill, if_pos (by omega)]
          have hjt : j < t := by omega
          have hmod : (t - j) % n ≠ 0 :=
            mod_ne_of_sub hjn hjt (fun hh => hjeq hh.symm)
          have hsub1 : t + 1 - 1 - j = t - j := by omega
          have hsub2 : t - 1 - j = (t - j) - 1 := by omega
          rw [hsub1, hsub2, ← nat_div_pred (by omega) hmod]
          have hle := Nat.div_mul_le_self (t - j) n
          have hmd := Nat.mod_add_div (t - j) n
          have hmpos : 1 ≤ (t - j) % n := by omega
          have hidxlt : j + n * ((t - j) / n) < t := by omega
          exact (getD_append_left _ nr x _ hidxlt).symm
        · rw [if_neg hfill]
          have htmod := Nat.mod_eq_of_lt (show t < n by omega)
          rw [if_neg (by omega)]
  · show (t % n + 1) % n = (nr ++ [x]).length % n
    rw [hlen]
    exact Nat.mod_add_mod t n 1
  · rw [hlen]

theorem ringState_nil (n : Nat) : ringState [] n = tailInit n := by
  unfold ringState tailInit
  refine tailState_ext ?_ (by simp) (by simp)
  apply List.ext_getElem
  · simp
  · intro j hj1 hj2
    rw [List.getElem_map, List.getElem_range, List.getElem_replicate]
    unfold ringSlot
    rw [if_neg (by simp)]

theorem tailState_fold {n : Nat} (hn : 1 ≤ n) :
    ∀ (l : List (List String)) (nr : List RawRow),
      l.foldl (tailStep n) (ringState nr n) = ringState (nr ++ numberedFrom nr.length l) n := by
  intro l
  induction l with
  | nil => intro nr; simp [numberedFrom]
  | cons c rest ih =>
    intro nr
    rw [List.foldl_cons, tailStep_ringState hn nr c, ih]
    have hlen : (nr ++ [({ number := nr.length + 1, values := c } : RawRow)]).length =
        nr.length + 1 := by
      simp
    rw [hlen, List.append_assoc]
    rfl

theorem tailExtract_ringState {n : Nat} (hn : 1 ≤ n) (nr : List RawRow) :
    tailExtract n (ringState nr n) =
      (nr.drop (nr.length - min n nr.length)).map constructRow := by
  unfold tailExtract ringState
  dsimp only
  by_cases h0 : nr.length = 0
  · rw [if_pos h0]
    have hnil : nr = [] := List.length_eq_zero.mp h0
    subst hnil
    simp
  · rw [if_neg h0]
    by_cases hlt : nr.length < n
    · rw [if_pos hlt]
      have hmin : min n nr.length = nr.length := by omega
      rw [hmin, Nat.sub_self, List.drop_zero]
      apply List.ext_getElem
      · simp
      · intro i h1 h2
        have hin : i < nr.length := by simpa using h1
        rw [List.getElem_map, List.getElem_range, List.getElem_map]
        congr 1
        rw [List.getD_eq_getElem _ _ (by simp only [List.length_map, List.length_range]; omega),
          List.getElem_map, List.getElem_range]
        unfold ringSlot
        rw [if_pos (by omega : i < min nr.length n)]
        rw [Nat.div_eq_of_lt (by omega : nr.length - 1 - i < n)]
        simp only [Nat.mul_zero, Nat.add_zero]
        rw [List.getD_eq_getElem _ _ (by omega)]
    · rw [if_neg hlt]
      have hmin : min n nr.length = n := by omega
      rw [hmin]
      apply List.ext_getElem
      · simp only [List.length_map, List.length_range, List.length_drop]
        omega
      · intro i h1 h2
        have hin : i < n := by simpa using h1
        rw [List.getElem_map, List.getElem_range, List.getElem_map, List.getElem_drop]
        congr 1
        have hjn : (nr.length % n + i) % n < n := Nat.mod_lt _ (by omega)
        rw [List.getD_eq_getElem _ _ (by simp only [List.length_map, List.length_range]; omega),
          List.getElem_map, List.getElem_range]
        unfold ringSlot
        rw [if_pos (by omega : (nr.length % n + i) % n < min nr.length n)]
        have ha1 : (nr.length - n + i) + n = nr.length + i := by omega
        have hamod : (nr.length - n + i) % n = (nr.length % n + i) % n := by
          rw [Nat.mod_add_mod, ← Nat.add_mod_right (nr.length - n + i) n, ha1]
        have hq := Nat.div_add_mod (nr.length - n + i) n
        have hkey : nr.length - 1 - (nr.length % n + i) % n =
            n * ((nr.length - n + i) / n) + (n - 1 - i) := by omega
        rw [hkey, Nat.mul_add_div (by omega), Nat.div_eq_of_lt (by omega : n - 1 - i < n),
          Nat.add_zero]
        have hidx : (nr.length % n + i) % n + n * ((nr.length - n + i) / n) =
            nr.length - n + i := by omega
        rw [hidx, List.getD_eq_getElem _ _ (by omega)]

/-- C3: `StreamTail` returns exactly the last `min(n, W)` rows of a `W`-row
sheet, in their original ascending row order; `n ≤ 0` is coerced to the
default 10, and an empty sheet yields the empty sequence. -/
theorem stream_tail_last_rows (sheetRows : List (List String)) (n : Int) :
    streamTail sheetRows n = lastRowsSpec sheetRows (if n ≤ 0 then 10 else n.toNat) := by
  unfold streamTail lastRowsSpec
  show tailExtract (if n ≤ 0 then (10 : Nat) else n.toNat)
      (List.foldl (tailStep (if n ≤ 0 then (10 : Nat) else n.toNat))
        (tailInit (if n ≤ 0 then (10 : Nat) else n.toNat)) sheetRows) = _
  set m := if n ≤ 0 then (10 : Nat) else n.toNat with hm
  have hm1 : 1 ≤ m := by
    rw [hm]
    split
    · omega
    · omega
  have hfold : List.foldl (tailStep m) (tailInit m) sheetRows =
      ringState (numberedRows sheetRows) m := by
    rw [← ringState_nil m, tailState_fold hm1 sheetRows []]
    rfl
  rw [hfold, tailExtract_ringState hm1 (numberedRows sheetRows)]
  have hl : (numberedRows sheetRows).length = sheetRows.length := by
    unfold numberedRows
    exact numberedFrom_length sheetRows 0
  rw [hl]

end Xlq
